import Mathlib

/-!
A shallow embedding of `drupal_standards_to_mdc.py`: the scoped link
crawler, the heading-based rule extractor, the `.mdc` template renderer,
and the change-detecting file writer.

Modelling conventions.
A URL is reduced to the two components the script inspects after
`urlparse`: the network location and the path.  A fetched page is the
list of `urljoin`-resolved anchor targets together with the flat
document-order list of tags, each tag carrying its name and its
`get_text(strip=True)` text; documents are modelled as flat sibling
lists, so `find_next_siblings()` is the list tail after the heading and
`find_next()` is that tail's head.  `requests.get` followed by
`raise_for_status` is an oracle `Url → Option Html`, where `none` models
any fetch failure (network error or non-success HTTP status).  The
Python `set` state of the crawler is modelled with lists and explicit
membership tests; `set.pop()` removes the head of the work list, and the
loop gets an explicit fuel parameter so that it is a total function.
The filesystem is a map from filename to file content.  Text is treated
as ASCII, which is the alphabet the script's regexes and the crawled
site use.
-/

namespace DrupalMdc

/-- A URL, reduced to the components the script inspects:
`urlparse(u).netloc` and `urlparse(u).path`. -/
structure Url where
  netloc : String
  path : String
  deriving DecidableEq

/-- One HTML tag in document order: its tag name and its
`get_text(strip=True)` text. -/
structure Element where
  tag : String
  text : String
  deriving DecidableEq

/-- A parsed page: the `urljoin`-resolved targets of its `<a href>` tags
and its flat list of tags. -/
structure Html where
  anchors : List Url
  elements : List Element
  deriving DecidableEq

/-- An extracted rule record, the dict with keys 'title', 'description'
and 'example' built on lines 140-144 of the script. -/
structure Rule where
  title : String
  description : String
  exampleCode : String
  deriving DecidableEq

/-- `leadsList n h` is true when `n` is an initial segment of `h`; the
character-list form of Python `str.startswith`. -/
def leadsList : List Char → List Char → Bool
  | [], _ => true
  | _ :: _, [] => false
  | a :: as, b :: bs => a = b && leadsList as bs

/-- Python's `needle in hay` membership test on character lists. -/
def containsSub (needle : List Char) : List Char → Bool
  | [] => needle.isEmpty
  | b :: bs => leadsList needle (b :: bs) || containsSub needle bs

/-- Python's substring test `needle in hay` for strings. -/
def pyIn (needle hay : String) : Bool := containsSub needle.toList hay.toList

/-- Python's `hay.startswith(lead)` for strings. -/
def pyStarts (hay lead : String) : Bool := leadsList lead.toList hay.toList

/-- ASCII model of Python `str.lower`. -/
def pyLower (s : String) : String := String.mk (s.toList.map Char.toLower)

/-- The fixed scope path literal of line 60. -/
def scopePath : String := "/docs/develop/standards"

/-- The link filter of line 60:
`base_domain in parsed.netloc and parsed.path.startswith('/docs/develop/standards')`. -/
def inScope (base_domain : String) (u : Url) : Bool :=
  pyIn base_domain u.netloc && pyStarts u.path scopePath

/-- `get_internal_links(url, base_domain)` (lines 41-62): a failed fetch
contributes the empty collection, otherwise the resolved anchor targets
that pass `inScope` are kept. -/
def get_internal_links (fetch : Url → Option Html) (url : Url)
    (base_domain : String) : List Url :=
  match fetch url with
  | none => []
  | some page => page.anchors.filter (inScope base_domain)

/-- The worklist loop of `crawl_standards` (lines 73-82).  `visited` and
`to_visit` are the two sets of the script, as lists; popping takes the
head of the work list; the links of the current page that are not yet
visited are appended to the frontier.  The explicit fuel makes the loop
a total function; `none` means the fuel ran out before the frontier
emptied. -/
def crawl_standards_aux (links : Url → List Url) :
    Nat → List Url → List Url → Option (List Url)
  | 0, _, _ => none
  | _ + 1, visited, [] => some visited
  | fuel + 1, visited, current :: rest =>
    if current ∈ visited then
      crawl_standards_aux links fuel visited rest
    else
      crawl_standards_aux links fuel (current :: visited)
        (rest ++ (links current).filter (fun u => decide (u ∉ current :: visited)))

/-- `crawl_standards(start_url)` (lines 64-82): the base domain is the
seed's netloc, the frontier starts as the seed singleton. -/
def crawl_standards (fetch : Url → Option Html) (start : Url) (fuel : Nat) :
    Option (List Url) :=
  crawl_standards_aux (fun u => get_internal_links fetch u start.netloc) fuel [] [start]

/-- The ASCII whitespace class of Python regex `\s` and `str.strip`. -/
def pyIsSpace (c : Char) : Bool :=
  c = ' ' || c = '\t' || c = '\n' || c = '\r' || c = '\x0b' || c = '\x0c'

/-- Python `str.strip()` on a character list. -/
def pyStripChars (l : List Char) : List Char :=
  ((l.dropWhile pyIsSpace).reverse.dropWhile pyIsSpace).reverse

/-- The substitution `re.sub(r'\s+', '-', s)` of line 91: every maximal
whitespace run becomes a single hyphen.  The boolean argument records
whether the previous character was whitespace. -/
def collapseWsAux : Bool → List Char → List Char
  | _, [] => []
  | prevSpace, c :: rest =>
    if pyIsSpace c then
      if prevSpace then collapseWsAux true rest
      else '-' :: collapseWsAux true rest
    else c :: collapseWsAux false rest

/-- `re.sub(r'\s+', '-', s)` starting outside any whitespace run. -/
def collapseWs (l : List Char) : List Char := collapseWsAux false l

/-- The character class kept by `re.sub(r'[^a-z0-9\-]', '', s)` of
line 92: lowercase ASCII letters, ASCII digits, and the hyphen. -/
def keepChar (c : Char) : Bool :=
  ('a' ≤ c && c ≤ 'z') || ('0' ≤ c && c ≤ '9') || c = '-'

/-- `sanitize_filename(title)` (lines 84-93): strip, lowercase, replace
whitespace runs with hyphens, drop every character outside `[a-z0-9-]`,
and append the fixed `.mdc` extension. -/
def sanitize_filename (title : String) : String :=
  String.mk ((collapseWs ((pyStripChars title.toList).map Char.toLower)).filter keepChar)
    ++ ".mdc"

/-- The boundary headings: the `['h2', 'h3']` selectors of lines 114
and 124. -/
def isHeading (e : Element) : Bool := e.tag = "h2" || e.tag = "h3"

/-- The skip test of line 117:
`len(title) < 3 or "example" in title.lower()`. -/
def skipTitle (title : String) : Bool :=
  decide (title.length < 3) || pyIn "example" (pyLower title)

/-- Python `" ".join(parts)`. -/
def pyJoinSpace : List String → String
  | [] => ""
  | x :: xs => xs.foldl (fun a b => a ++ " " ++ b) x

/-- The fallback sentinel of line 138. -/
def placeholderExample : String := "EXAMPLE_CODE_HERE"

/-- The loop body of lines 120-145 for one heading: walk the following
siblings up to the next boundary heading; collect every paragraph text;
keep the text of the last `pre`/`code` sibling, because line 131
reassigns `code_example` on every such sibling; if no paragraph was
collected, fall back to the text of the element immediately after the
heading; and substitute the placeholder when the kept example is `None`
or the empty string (both falsy on line 137). -/
def ruleFor (header : Element) (rest : List Element) : Rule :=
  let sibs := rest.takeWhile (fun s => !isHeading s)
  let parts := (sibs.filter (fun s => s.tag = "p")).map Element.text
  let code? := ((sibs.filter (fun s => s.tag = "pre" || s.tag = "code")).map Element.text).getLast?
  let parts := if parts.isEmpty then
      match rest.head? with
      | some e => [e.text]
      | none => []
    else parts
  { title := header.text
    description := pyJoinSpace parts
    exampleCode :=
      match code? with
      | some t => if t = "" then placeholderExample else t
      | none => placeholderExample }

/-- The heading scan of `extract_rules_from_page` (lines 114-146) over
the flat document element list: one rule per non-skipped boundary
heading, in document order. -/
def extractRules : List Element → List Rule
  | [] => []
  | e :: rest =>
    if isHeading e then
      if skipTitle e.text then extractRules rest
      else ruleFor e rest :: extractRules rest
    else extractRules rest

/-- `extract_rules_from_page(url)` (lines 95-146): a fetch failure
yields the empty rule list. -/
def extract_rules_from_page (fetch : Url → Option Html) (url : Url) : List Rule :=
  match fetch url with
  | none => []
  | some page => extractRules page.elements

/-- `generate_mdc_content(rule)` (lines 148-161).  The Python lexer
merges the adjacent f-string literals into the single template
interpolating the description twice and the example once. -/
def generate_mdc_content (rule : Rule) : String :=
  "---\ndescription: " ++ rule.description ++ "\nglobs: \n---\n" ++
    rule.description ++ ": " ++ rule.exampleCode ++ "\n"

/-- The outcome of one `write_rule_file` call, read off the three
printed branches of lines 173, 176 and 178. -/
inductive WriteResult
  | created
  | updated
  | unchanged
  deriving DecidableEq

/-- `write_rule_file(rule)` (lines 163-180) over a filesystem modelled
as a map from filename to file content: create the file when it does
not exist, leave it alone when its content already equals the rendered
content, overwrite it otherwise. -/
def write_rule_file (fs : String → Option String) (rule : Rule) :
    (String → Option String) × WriteResult :=
  match fs (sanitize_filename rule.title) with
  | some old_content =>
    if old_content = generate_mdc_content rule then (fs, WriteResult.unchanged)
    else (fun f => if f = sanitize_filename rule.title then
            some (generate_mdc_content rule) else fs f,
          WriteResult.updated)
  | none =>
    (fun f => if f = sanitize_filename rule.title then
        some (generate_mdc_content rule) else fs f,
     WriteResult.created)

/-- The rule of the specification's template-exactness example. -/
def castingRule : Rule :=
  { title := "Casting"
    description := "Put a space between the (type) and the $variable in a cast."
    exampleCode := "(int) $mynumber" }

/-- A concrete seed URL on the scope path. -/
def seedUrl : Url := { netloc := "drupal.org", path := "/docs/develop/standards" }

/-- A URL on another host whose netloc merely contains the seed's
netloc as a substring. -/
def oddHostUrl : Url := { netloc := "xdrupal.org", path := "/docs/develop/standards/more" }

/-- A second page on the seed's host, used by the cyclic-site examples. -/
def pageB : Url := { netloc := "drupal.org", path := "/docs/develop/standards/php" }

/-- A site where the seed page links to `oddHostUrl`. -/
def oddSite : Url → Option Html := fun u =>
  if u = seedUrl then some { anchors := [oddHostUrl], elements := [] }
  else some { anchors := [], elements := [] }

/-- A two-page site whose pages link to each other: a link cycle. -/
def cycleSite : Url → Option Html := fun u =>
  if u = seedUrl then some { anchors := [pageB], elements := [] }
  else if u = pageB then some { anchors := [seedUrl], elements := [] }
  else none

/-- A site where every fetch fails. -/
def downSite : Url → Option Html := fun _ => none

/-- A heading followed by two `pre` siblings with distinct texts. -/
def twoPrePage : List Element :=
  [{ tag := "h2", text := "Indentation" },
   { tag := "pre", text := "$a = 1;" },
   { tag := "pre", text := "$b = 2;" }]

/-- A qualifying heading immediately followed by another boundary
heading, then the end of the document. -/
def twoHeadingPage : List Element :=
  [{ tag := "h2", text := "Casting rule" },
   { tag := "h2", text := "Second heading" }]

/-- The finite universe of the cyclic site, for the termination bound. -/
def cycleU : Finset Url := {seedUrl, pageB}

/-- A heading whose sibling list holds a `pre` block then a `code`
block, for the last-example witness. -/
def wEl : Element := { tag := "h2", text := "Operators" }

/-- The sibling tail after `wEl`. -/
def wRest : List Element :=
  [{ tag := "pre", text := "x" }, { tag := "code", text := "y" }]

/-- A lone qualifying heading at the end of its document. -/
def wEl7 : Element := { tag := "h3", text := "Arrays" }

/-- The empty filesystem. -/
def emptyFs : String → Option String := fun _ => none

/-- The title projection of the rule built for one heading is the
heading's stripped text. -/
theorem ruleFor_title (header : Element) (rest : List Element) :
    (ruleFor header rest).title = header.text := rfl

/-- C3: `generate_mdc_content` renders exactly the five-line template,
with the trailing space after `globs:` and a single final newline, and
on the casting rule it produces byte for byte the block of the
specification. -/
theorem generate_mdc_template_exact :
    (∀ r : Rule, generate_mdc_content r =
        "---\ndescription: " ++ r.description ++ "\nglobs: \n---\n" ++
          r.description ++ ": " ++ r.exampleCode ++ "\n") ∧
    generate_mdc_content castingRule =
      "---\ndescription: Put a space between the (type) and the $variable in a cast.\nglobs: \n---\nPut a space between the (type) and the $variable in a cast.: (int) $mynumber\n" :=
  ⟨fun _ => rfl, rfl⟩

/-- C9: `sanitize_filename` ignores surrounding whitespace of the title,
and always returns a slug of lowercase ASCII letters, digits and hyphens
followed by the fixed `.mdc` extension. -/
theorem sanitize_filename_props :
    sanitize_filename "Casting" = sanitize_filename "  Casting  " ∧
    ∀ title : String, ∃ slug : List Char,
      sanitize_filename title = String.mk slug ++ ".mdc" ∧
      slug.all (fun c => ('a' ≤ c && c ≤ 'z') || ('0' ≤ c && c ≤ '9') || c = '-') = true := by
  constructor
  · decide
  · intro title
    refine ⟨(collapseWs ((pyStripChars title.toList).map Char.toLower)).filter keepChar,
      rfl, ?_⟩
    rw [List.all_eq_true]
    intro c hc
    have hk := List.of_mem_filter hc
    simp only [keepChar] at hk
    simpa using hk

/-- C10: a title left with no kept character after stripping, lowering
and whitespace collapsing sanitizes to the bare extension `.mdc`, so all
such titles collide on one hidden file. -/
theorem sanitize_empty_slug_collision (t₁ t₂ : String)
    (h₁ : (collapseWs ((pyStripChars t₁.toList).map Char.toLower)).all
        (fun c => !keepChar c) = true)
    (h₂ : (collapseWs ((pyStripChars t₂.toList).map Char.toLower)).all
        (fun c => !keepChar c) = true) :
    sanitize_filename t₁ = ".mdc" ∧ sanitize_filename t₁ = sanitize_filename t₂ := by
  have key : ∀ t : String,
      (collapseWs ((pyStripChars t.toList).map Char.toLower)).all
        (fun c => !keepChar c) = true →
      sanitize_filename t = ".mdc" := by
    intro t ht
    have hfil : (collapseWs ((pyStripChars t.toList).map Char.toLower)).filter keepChar
        = [] := by
      rw [List.filter_eq_nil_iff]
      intro a ha
      have := List.all_eq_true.mp ht a ha
      simp only [Bool.not_eq_true'] at this
      simp [this]
    unfold sanitize_filename
    rw [hfil]
    rfl
  exact ⟨key t₁ h₁, by rw [key t₁ h₁, key t₂ h₂]⟩

/-- Witness for C10 at two punctuation-only titles. -/
theorem sanitize_empty_slug_collision_witness :
    sanitize_filename "???" = ".mdc" ∧
    sanitize_filename "???" = sanitize_filename "!!!" :=
  sanitize_empty_slug_collision "???" "!!!" (by decide) (by decide)

/-- C4: on a filesystem where the derived file is absent, writing a rule
twice yields `created` then `unchanged`, the second call performs no
write, and the final file content is exactly the rendered content. -/
theorem write_rule_file_idempotent (fs : String → Option String) (rule : Rule)
    (h : fs (sanitize_filename rule.title) = none) :
    (write_rule_file fs rule).2 = WriteResult.created ∧
    (write_rule_file (write_rule_file fs rule).1 rule).2 = WriteResult.unchanged ∧
    (write_rule_file (write_rule_file fs rule).1 rule).1 (sanitize_filename rule.title) =
      some (generate_mdc_content rule) ∧
    (write_rule_file (write_rule_file fs rule).1 rule).1 = (write_rule_file fs rule).1 := by
  have h1 : write_rule_file fs rule =
      (fun f => if f = sanitize_filename rule.title then
          some (generate_mdc_content rule) else fs f,
       WriteResult.created) := by
    unfold write_rule_file
    rw [h]
  have hfs1 : (write_rule_file fs rule).1 =
      fun f => if f = sanitize_filename rule.title then
        some (generate_mdc_content rule) else fs f := by
    rw [h1]
  have hl : (write_rule_file fs rule).1 (sanitize_filename rule.title) =
      some (generate_mdc_content rule) := by
    rw [hfs1]
    simp
  have hgen : ∀ g : String → Option String,
      g (sanitize_filename rule.title) = some (generate_mdc_content rule) →
      write_rule_file g rule = (g, WriteResult.unchanged) := by
    intro g hg
    unfold write_rule_file
    rw [hg]
    simp
  have h2 : write_rule_file (write_rule_file fs rule).1 rule =
      ((write_rule_file fs rule).1, WriteResult.unchanged) :=
    hgen (write_rule_file fs rule).1 hl
  refine ⟨by rw [h1], by rw [h2], ?_, by rw [h2]⟩
  rw [h2]
  exact hl

/-- Witness for C4 on the empty filesystem and the casting rule. -/
theorem write_rule_file_idempotent_witness :
    emptyFs (sanitize_filename castingRule.title) = none ∧
    ((write_rule_file emptyFs castingRule).2 = WriteResult.created ∧
      (write_rule_file (write_rule_file emptyFs castingRule).1 castingRule).2 =
        WriteResult.unchanged ∧
      (write_rule_file (write_rule_file emptyFs castingRule).1 castingRule).1
          (sanitize_filename castingRule.title) = some (generate_mdc_content castingRule) ∧
      (write_rule_file (write_rule_file emptyFs castingRule).1 castingRule).1 =
        (write_rule_file emptyFs castingRule).1) :=
  ⟨rfl, write_rule_file_idempotent emptyFs castingRule rfl⟩

/-- C6: a heading is turned into a rule exactly when its stripped title
has length at least three and does not case-insensitively contain the
substring `example`; in particular `ab` is always skipped and
`See Examples` is skipped in every letter case. -/
theorem heading_filter_iff :
    (∀ elems : List Element,
        (extractRules elems).map Rule.title =
          ((elems.filter isHeading).map Element.text).filter (fun t => !skipTitle t)) ∧
    (∀ t : String, skipTitle t = false ↔
        (3 ≤ t.length ∧ pyIn "example" (pyLower t) = false)) ∧
    skipTitle "ab" = true ∧
    skipTitle "See Examples" = true ∧
    skipTitle "SEE EXAMPLES" = true ∧
    skipTitle "see examples" = true := by
  refine ⟨?_, ?_, by decide, by decide, by decide, by decide⟩
  · intro elems
    induction elems with
    | nil => rfl
    | cons e rest ih =>
      cases h1 : isHeading e with
      | false => simp [extractRules, h1, ih]
      | true =>
        cases h2 : skipTitle e.text with
        | false => simp [extractRules, h1, h2, ih, ruleFor_title]
        | true => simp [extractRules, h1, h2, ih]
  · intro t
    simp [skipTitle, Nat.not_lt]

/-- C2 counterexample: a heading followed by two `pre` siblings is given
the text of the second (last) block, not the first one. -/
theorem example_first_sibling_counterexample :
    (extractRules twoPrePage).map Rule.exampleCode = ["$b = 2;"] ∧
    ("$b = 2;" : String) ≠ "$a = 1;" := by decide

/-- C2 (amended): the emitted example is the stripped text of the LAST
pre-or-code sibling before the next boundary heading, with the fixed
placeholder substituted when that text is empty. -/
theorem example_last_sibling (e : Element) (rest : List Element) (t : String)
    (hh : isHeading e = true) (hq : skipTitle e.text = false)
    (hc : (((rest.takeWhile (fun s => !isHeading s)).filter
        (fun s => s.tag = "pre" || s.tag = "code")).map Element.text).getLast? = some t) :
    (extractRules (e :: rest)).head? = some (ruleFor e rest) ∧
    (ruleFor e rest).exampleCode = if t = "" then placeholderExample else t := by
  constructor
  · simp [extractRules, hh, hq]
  · simp only [ruleFor, hc]

/-- Witness for C2 (amended) on a heading with a `pre` then a `code`
sibling. -/
theorem example_last_sibling_witness :
    (extractRules (wEl :: wRest)).head? = some (ruleFor wEl wRest) ∧
    (ruleFor wEl wRest).exampleCode = if ("y" : String) = "" then placeholderExample else "y" :=
  example_last_sibling wEl wRest "y" (by decide) (by decide) (by decide)

/-- C7 counterexample: a qualifying heading with zero siblings before
the next boundary heading falls back to `find_next()`, which is that
very next heading, so the description is the next heading's text rather
than the empty string. -/
theorem no_sibling_description_counterexample :
    (extractRules twoHeadingPage).map Rule.description = ["Second heading", ""] ∧
    ("Second heading" : String) ≠ "" := by decide

/-- C7 (amended): a qualifying heading with no sibling before the next
boundary heading or the end of the document is still emitted with the
placeholder example; its description is the text of the element
immediately after it when one exists, and empty at the end of the
document. -/
theorem no_sibling_rule_emitted (e : Element) (rest : List Element)
    (hh : isHeading e = true) (hq : skipTitle e.text = false)
    (hs : rest.takeWhile (fun s => !isHeading s) = []) :
    (extractRules (e :: rest)).head? =
      some { title := e.text,
             description := (rest.head?.map Element.text).getD "",
             exampleCode := placeholderExample } := by
  have h1 : (extractRules (e :: rest)).head? = some (ruleFor e rest) := by
    simp [extractRules, hh, hq]
  rw [h1]
  cases rest with
  | nil => simp [ruleFor, pyJoinSpace]
  | cons r tail => simp [ruleFor, hs, pyJoinSpace]

/-- Witness for C7 (amended) on a lone trailing heading. -/
theorem no_sibling_rule_emitted_witness :
    (extractRules [wEl7]).head? =
      some { title := wEl7.text,
             description := ((List.head? ([] : List Element)).map Element.text).getD "",
             exampleCode := placeholderExample } :=
  no_sibling_rule_emitted wEl7 [] (by decide) (by decide) (by decide)

/-- Any property that holds on the initial visited and frontier lists
and on every discovered link holds on every URL of a completed crawl. -/
theorem crawlAux_invariant (links : Url → List Url) (P : Url → Prop)
    (hlinks : ∀ c u, u ∈ links c → P u) :
    ∀ (fuel : Nat) (visited toVisit r : List Url),
      (∀ v ∈ visited, P v) → (∀ v ∈ toVisit, P v) →
      crawl_standards_aux links fuel visited toVisit = some r →
      ∀ u ∈ r, P u := by
  intro fuel
  induction fuel with
  | zero =>
    intro visited toVisit r _ _ h
    simp [crawl_standards_aux] at h
  | succ n ih =>
    intro visited toVisit r hV hTV h
    cases toVisit with
    | nil =>
      simp [crawl_standards_aux] at h
      exact h ▸ hV
    | cons c rest =>
      by_cases hc : c ∈ visited
      · have heq : crawl_standards_aux links (n + 1) visited (c :: rest) =
            crawl_standards_aux links n visited rest := by
          simp [crawl_standards_aux, hc]
        rw [heq] at h
        exact ih visited rest r hV (fun v hv => hTV v (List.mem_cons_of_mem _ hv)) h
      · have heq : crawl_standards_aux links (n + 1) visited (c :: rest) =
            crawl_standards_aux links n (c :: visited)
              (rest ++ (links c).filter (fun u => decide (u ∉ c :: visited))) := by
          simp [crawl_standards_aux, hc]
        rw [heq] at h
        refine ih (c :: visited) _ r ?_ ?_ h
        · intro v hv
          rcases List.mem_cons.mp hv with rfl | hv'
          · exact hTV v (List.mem_cons_self _ _)
          · exact hV v hv'
        · intro v hv
          rcases List.mem_append.mp hv with hv' | hv'
          · exact hTV v (List.mem_cons_of_mem _ hv')
          · exact hlinks c v (List.mem_of_mem_filter hv')

/-- Every URL of the initial visited list and of the frontier ends up in
the result of a completed crawl. -/
theorem crawlAux_mem (links : Url → List Url) :
    ∀ (fuel : Nat) (visited toVisit r : List Url),
      crawl_standards_aux links fuel visited toVisit = some r →
      ∀ v, (v ∈ visited ∨ v ∈ toVisit) → v ∈ r := by
  intro fuel
  induction fuel with
  | zero =>
    intro visited toVisit r h
    simp [crawl_standards_aux] at h
  | succ n ih =>
    intro visited toVisit r h v hv
    cases toVisit with
    | nil =>
      simp [crawl_standards_aux] at h
      rcases hv with hv | hv
      · exact h ▸ hv
      · simp at hv
    | cons c rest =>
      by_cases hc : c ∈ visited
      · have heq : crawl_standards_aux links (n + 1) visited (c :: rest) =
            crawl_standards_aux links n visited rest := by
          simp [crawl_standards_aux, hc]
        rw [heq] at h
        rcases hv with hv | hv
        · exact ih visited rest r h v (Or.inl hv)
        · rcases List.mem_cons.mp hv with rfl | hv'
          · exact ih visited rest r h v (Or.inl hc)
          · exact ih visited rest r h v (Or.inr hv')
      · have heq : crawl_standards_aux links (n + 1) visited (c :: rest) =
            crawl_standards_aux links n (c :: visited)
              (rest ++ (links c).filter (fun u => decide (u ∉ c :: visited))) := by
          simp [crawl_standards_aux, hc]
        rw [heq] at h
        rcases hv with hv | hv
        · exact ih _ _ r h v (Or.inl (List.mem_cons_of_mem _ hv))
        · rcases List.mem_cons.mp hv with rfl | hv'
          · exact ih _ _ r h v (Or.inl (List.mem_cons_self _ _))
          · exact ih _ _ r h v (Or.inr (List.mem_append_left _ hv'))

/-- The crawl loop completes whenever the fuel exceeds the measure
built from a finite universe `U` closed under the link map, with `B`
bounding the number of links per page: each iteration either shortens
the frontier or moves an unvisited element of `U` into the visited
list while growing the frontier by at most `B`. -/
theorem crawlAux_total (links : Url → List Url) (U : Finset Url) (B : Nat)
    (hclosed : ∀ u ∈ U, ∀ v ∈ links u, v ∈ U)
    (hB : ∀ u ∈ U, (links u).length ≤ B) :
    ∀ (fuel : Nat) (visited toVisit : List Url),
      (∀ v ∈ toVisit, v ∈ U) →
      (B + 1) * (U \ visited.toFinset).card + toVisit.length < fuel →
      (crawl_standards_aux links fuel visited toVisit).isSome = true := by
  intro fuel
  induction fuel with
  | zero =>
    intro visited toVisit _ hm
    exact absurd hm (Nat.not_lt_zero _)
  | succ n ih =>
    intro visited toVisit hTV hm
    cases toVisit with
    | nil => simp [crawl_standards_aux]
    | cons c rest =>
      by_cases hc : c ∈ visited
      · have heq : crawl_standards_aux links (n + 1) visited (c :: rest) =
            crawl_standards_aux links n visited rest := by
          simp [crawl_standards_aux, hc]
        rw [heq]
        refine ih visited rest (fun v hv => hTV v (List.mem_cons_of_mem _ hv)) ?_
        simp only [List.length_cons] at hm
        omega
      · have heq : crawl_standards_aux links (n + 1) visited (c :: rest) =
            crawl_standards_aux links n (c :: visited)
              (rest ++ (links c).filter (fun u => decide (u ∉ c :: visited))) := by
          simp [crawl_standards_aux, hc]
        rw [heq]
        have hcU : c ∈ U := hTV c (List.mem_cons_self c rest)
        refine ih (c :: visited) _ ?_ ?_
        · intro v hv
          rcases List.mem_append.mp hv with hv' | hv'
          · exact hTV v (List.mem_cons_of_mem _ hv')
          · exact hclosed c hcU v (List.mem_of_mem_filter hv')
        · have hcnot : c ∉ visited.toFinset := fun hmem => hc (List.mem_toFinset.mp hmem)
          have hcmem : c ∈ U \ visited.toFinset := Finset.mem_sdiff.mpr ⟨hcU, hcnot⟩
          have hK : (U \ (c :: visited).toFinset).card = (U \ visited.toFinset).card - 1 := by
            rw [List.toFinset_cons, Finset.sdiff_insert, Finset.card_erase_of_mem hcmem]
          have hKpos : 0 < (U \ visited.toFinset).card := Finset.card_pos.mpr ⟨c, hcmem⟩
          have hfl : ((links c).filter (fun u => decide (u ∉ c :: visited))).length ≤ B :=
            le_trans (List.length_filter_le _ _) (hB c hcU)
          have hmul : (B + 1) * (U \ visited.toFinset).card =
              (B + 1) * ((U \ visited.toFinset).card - 1) + (B + 1) := by
            rcases Nat.exists_eq_succ_of_ne_zero (Nat.pos_iff_ne_zero.mp hKpos) with ⟨j, hj⟩
            rw [hj]
            simp [Nat.mul_succ]
          simp only [List.length_append, List.length_cons] at hm ⊢
          rw [hK]
          omega

/-- C1 counterexample: crawling `oddSite` returns `oddHostUrl`, whose
host differs from the seed's host although it contains it as a
substring, so equality of hosts fails on the crawl result. -/
theorem crawl_scope_host_counterexample :
    crawl_standards oddSite seedUrl 5 = some [oddHostUrl, seedUrl] ∧
    oddHostUrl ∈ [oddHostUrl, seedUrl] ∧
    oddHostUrl.netloc ≠ seedUrl.netloc := by decide

/-- C1 (amended): every URL returned by the crawl is the seed itself or
passes the source filter, that is, its netloc CONTAINS the seed netloc
as a substring and its path starts with the scope path. -/
theorem crawl_scope_containment (fetch : Url → Option Html) (start : Url)
    (fuel : Nat) (r : List Url)
    (h : crawl_standards fetch start fuel = some r) :
    ∀ u ∈ r, u = start ∨ inScope start.netloc u = true := by
  have hlinks : ∀ c u, u ∈ get_internal_links fetch c start.netloc →
      (u = start ∨ inScope start.netloc u = true) := by
    intro c u hu
    unfold get_internal_links at hu
    cases hf : fetch c with
    | none => rw [hf] at hu; simp at hu
    | some page =>
      rw [hf] at hu
      exact Or.inr (List.of_mem_filter hu)
  refine crawlAux_invariant _ _ hlinks fuel [] [start] r (by simp) ?_ h
  intro v hv
  rcases List.mem_singleton.mp hv with rfl
  exact Or.inl rfl

/-- Witness for C1 (amended) on the two-page cyclic site. -/
theorem crawl_scope_containment_witness :
    crawl_standards cycleSite seedUrl 6 = some [pageB, seedUrl] ∧
    (pageB = seedUrl ∨ inScope seedUrl.netloc pageB = true) :=
  ⟨by decide,
   crawl_scope_containment cycleSite seedUrl 6 [pageB, seedUrl] (by decide) pageB (by decide)⟩

/-- C5: the crawl terminates on every finite link graph, cycles
included: whenever a finite universe `U` contains the seed and is
closed under in-scope link discovery, with at most `B` links per page,
the loop completes within `(B + 1) * |U| + 2` iterations, because the
visited list grows strictly on every fetch and bounds the frontier. -/
theorem crawl_standards_terminates (fetch : Url → Option Html) (start : Url)
    (U : Finset Url) (B : Nat)
    (hstart : start ∈ U)
    (hclosed : ∀ u ∈ U, ∀ v ∈ get_internal_links fetch u start.netloc, v ∈ U)
    (hB : ∀ u ∈ U, (get_internal_links fetch u start.netloc).length ≤ B) :
    (crawl_standards fetch start ((B + 1) * U.card + 2)).isSome = true := by
  unfold crawl_standards
  refine crawlAux_total _ U B hclosed hB _ [] [start] ?_ ?_
  · intro v hv
    rcases List.mem_singleton.mp hv with rfl
    exact hstart
  · simp

/-- Witness for C5: the cyclic two-page site terminates with the fuel
bound computed from its universe. -/
theorem crawl_standards_terminates_witness :
    (crawl_standards cycleSite seedUrl ((1 + 1) * cycleU.card + 2)).isSome = true :=
  crawl_standards_terminates cycleSite seedUrl cycleU 1 (by decide) (by decide) (by decide)

/-- C8: a failed fetch contributes the empty link collection and the
empty rule sequence, and a completed crawl still contains every visited
and every frontier page, the failing one included, so one failure
aborts neither the crawl nor the processing of any other page. -/
theorem fetch_failure_isolation (fetch : Url → Option Html) (url : Url)
    (base_domain : String) (h : fetch url = none) :
    get_internal_links fetch url base_domain = [] ∧
    extract_rules_from_page fetch url = [] ∧
    (∀ (fuel : Nat) (visited toVisit r : List Url),
        crawl_standards_aux (fun u => get_internal_links fetch u base_domain)
          fuel visited toVisit = some r →
        ∀ v, (v ∈ visited ∨ v ∈ toVisit) → v ∈ r) := by
  refine ⟨?_, ?_, crawlAux_mem _⟩
  · simp [get_internal_links, h]
  · simp [extract_rules_from_page, h]

/-- Witness for C8 on the everywhere-failing site. -/
theorem fetch_failure_isolation_witness :
    downSite seedUrl = none ∧
    get_internal_links downSite seedUrl "drupal.org" = [] ∧
    extract_rules_from_page downSite seedUrl = [] :=
  ⟨rfl, (fetch_failure_isolation downSite seedUrl "drupal.org" rfl).1,
   (fetch_failure_isolation downSite seedUrl "drupal.org" rfl).2.1⟩

end DrupalMdc
